import Mathlib

/-!
Verification of the hget parallel download engine (github.com/abzcoding/hget).

This file shallowly embeds the pure core of the Go sources — the range
planner `partCalculate`, the part worker's request construction and
state emission (`downloadPart` / `buildRequestForPart`), the resume
loader `Resume`, the coordinator event loop `Execute`, the capability
prober of `NewHTTPDownloader`, the path utilities `TaskFromURL` /
`FolderOf`, and the manifest (de)serialization used by `State.Save` /
`Read` — and proves the specification's claims about them.

Conventions of the embedding:
* Go `int64` values are modelled as `Int`; Go's truncating integer
  division is `Int.tdiv` (all quantities involved are non-negative, where
  truncating, flooring and euclidean division agree).
* Go `string` values are modelled as `String` (equivalently their
  character lists); the byte-level functions of `path/filepath` and
  `strings` are reimplemented character by character.  All strings that
  occur are valid UTF-8, where Go bytes and characters correspond.
* Filesystem and network effects are made explicit: the size of an
  on-disk file becomes a `String → Option Int` argument, an HTTP
  response becomes a record of the header values the code reads, and the
  coordinator's channel select loop becomes a function over the list of
  events it serializes.
-/

namespace Hget

/-! ## Data model: `Part` and `State` (file `state.go`) -/

/-- A chunk of the downloaded file; fields exactly as in the Go struct
`Part` (Index, URL, Path, RangeFrom, RangeTo, all int64/string). -/
structure Part where
  Index : Int
  URL : String
  Path : String
  RangeFrom : Int
  RangeTo : Int
deriving DecidableEq, Repr

instance : Inhabited Part := ⟨⟨0, "", "", 0, 0⟩⟩

/-- The per-task manifest; fields exactly as in the Go struct `State`
(URL, Parts). -/
structure State where
  URL : String
  Parts : List Part
deriving DecidableEq, Repr

/-- List indexing with a default element, used to state facts about the
`i`-th part of a plan. -/
def partAt (ps : List Part) (i : Nat) : Part := ps.getD i default

/-! ## Decimal formatting (models `strconv.FormatInt`/`fmt %d`) -/

/-- Fuel-driven decimal rendering: `natDecF f n` is the decimal digit
list of `n`, most significant first, provided `n < f`. -/
def natDecF : Nat → Nat → List Char
  | 0, _ => []
  | f + 1, n => if n < 10 then [Nat.digitChar n] else natDecF f (n / 10) ++ [Nat.digitChar (n % 10)]

/-- Decimal digits of a natural number, most significant first, as
produced by Go's decimal formatting verbs (no leading zeros, `"0"` for
zero). -/
def natDec (n : Nat) : List Char := natDecF (n + 1) n

/-- Decimal rendering of an integer, as produced by `fmt.Sprintf("%d", i)`
and `strconv.FormatInt(i, 10)` on an int64. -/
def renderInt (i : Int) : List Char :=
  if i < 0 then '-' :: natDec (-i).toNat else natDec i.toNat

/-- Zero-padded six-digit rendering of a part index, as produced by
`fmt.Sprintf("%06d", j)` for the non-negative loop counter `j` of
`partCalculate`. -/
def pad6 (j : Nat) : List Char :=
  List.replicate (6 - (natDec j).length) '0' ++ natDec j

/-! ## Path utilities (files `util.go` / the `filepath` calls it makes)

The embedding works on the character lists of paths.  `splitSlash`,
`cleanSegs`, `goCleanChars`, `goBaseChars`, `goJoinChars`, `goRelChars`
model `strings.Split`-style separator splitting and the `filepath`
functions `Clean`, `Base`, `Join`, `Rel` on a Unix system (separator
`'/'`, no volume names). -/

/-- Split a character list at every `'/'`; models how `filepath` walks
path elements ( `"a/b"` ↦ `["a","b"]`, `"/a"` ↦ `["","a"]`, `""` ↦ `[""]`). -/
def splitSlash : List Char → List (List Char)
  | [] => [[]]
  | c :: cs =>
    if c = '/' then [] :: splitSlash cs
    else
      match splitSlash cs with
      | [] => [[c]]
      | p :: ps => (c :: p) :: ps

/-- One step of `filepath.Clean`'s element processing: empty and `"."`
elements are dropped; `".."` pops the previous element when possible, is
kept for relative paths that cannot backtrack, and is dropped at the
root.  `acc` holds the output elements in reverse. -/
def cleanSegs (rooted : Bool) (acc : List (List Char)) : List (List Char) → List (List Char)
  | [] => acc.reverse
  | seg :: rest =>
    if seg = [] ∨ seg = ['.'] then cleanSegs rooted acc rest
    else if seg = ['.', '.'] then
      match acc with
      | [] => if rooted then cleanSegs rooted [] rest else cleanSegs rooted [['.', '.']] rest
      | top :: acc' =>
        if top = ['.', '.'] then cleanSegs rooted (seg :: acc) rest
        else cleanSegs rooted acc' rest
    else cleanSegs rooted (seg :: acc) rest

/-- Join path elements with `'/'`. -/
def interSlash (segs : List (List Char)) : List Char := List.intercalate ['/'] segs

/-- The cleaned path elements of a path (the element list underlying
`filepath.Clean`). -/
def pathSegs (p : List Char) : List (List Char) :=
  cleanSegs (p.head? = some '/') [] (splitSlash p)

/-- Models `filepath.Clean` on a Unix path. -/
def goCleanChars (p : List Char) : List Char :=
  if p = [] then ['.']
  else
    let rooted := p.head? = some '/'
    let out := cleanSegs rooted [] (splitSlash p)
    if rooted then '/' :: interSlash out
    else if out = [] then ['.'] else interSlash out

/-- Drop the trailing characters of `p` satisfying `f`; models
`strings.TrimRight` for a character set. -/
def dropTrailing (f : Char → Bool) (p : List Char) : List Char :=
  (p.reverse.dropWhile f).reverse

/-- The path separator test (`'/'` on Unix). -/
def isSep (c : Char) : Bool := c = '/'

/-- The character set `"/\\"` that `TaskFromURL` trims from the right. -/
def isSepOrBackslash (c : Char) : Bool := c = '/' ∨ c = '\\'

/-- Models `filepath.Base` on a Unix path: strip trailing slashes, then
take everything after the last slash (`"."` for the empty path, `"/"`
for an all-slash path). -/
def goBaseChars (p : List Char) : List Char :=
  if p = [] then ['.']
  else
    let q := dropTrailing isSep p
    if q = [] then ['/'] else (splitSlash q).getLastD []

/-- Models `filepath.Join`: drop empty elements, join with `'/'`, clean;
the empty string when every element is empty. -/
def goJoinChars (elems : List (List Char)) : List Char :=
  let ne := elems.filter (fun e => e ≠ [])
  if ne = [] then [] else goCleanChars (interSlash ne)

/-- Models `filepath.Abs`: a rooted path is cleaned, otherwise the path
is joined to the working directory `cwd`. -/
def goAbsChars (cwd p : List Char) : List Char :=
  if p.head? = some '/' then goCleanChars p else goJoinChars [cwd, p]

/-- The length of the longest common prefix of two element lists, as
walked by `filepath.Rel`. -/
def commonLen : List (List Char) → List (List Char) → Nat
  | a :: as, b :: bs => if a = b then commonLen as bs + 1 else 0
  | _, _ => 0

/-- Models `filepath.Rel basep targp` on Unix paths: clean both, walk the
common elements, then climb with `".."` for each remaining base element;
`none` models the error returns (mixed rooted/relative arguments, or a
remaining `".."` base element that cannot be climbed). -/
def goRelChars (basep targp : List Char) : Option (List Char) :=
  let base := goCleanChars basep
  let targ := goCleanChars targp
  if base = targ then some ['.']
  else if (base.head? = some '/') ≠ (targ.head? = some '/') then none
  else
    let bl := pathSegs base
    let tl := pathSegs targ
    let k := commonLen bl tl
    let brem := bl.drop k
    let trem := tl.drop k
    if brem.head? = some ['.', '.'] then none
    else if brem = [] then some (interSlash trem)
    else some (interSlash (List.replicate brem.length ['.', '.'] ++ trem))

/-- Substring test on strings (models `strings.Contains`; the patterns
used are ASCII, where Go's byte-level search and this character-level
search agree). -/
def goContains (s sub : String) : Bool := decide (sub.data <:+: s.data)

/-- The cleaned path elements of a string path, the basis for comparing
directory hierarchies. -/
def relSegs (s : String) : List (List Char) := pathSegs (goCleanChars s.data)

/-- `p` lies at or below `root` in the directory hierarchy: every
cleaned element of `root` is an initial element of `p`. -/
def isDescendantOf (p root : String) : Prop := relSegs root <+: relSegs p

/-- `p` lies strictly below `root`: a descendant other than `root`
itself. -/
def isStrictDescendantOf (p root : String) : Prop :=
  isDescendantOf p root ∧ relSegs p ≠ relSegs root

/-- Models `TaskFromURL` (file `util.go`) applied to a URL whose parsed
path component is `path`: the final element of the cleaned path after
trailing `/` and `\` are trimmed.  (`url.Parse` itself is the standard
library; the function's result depends on the URL only through its path
component, which this embedding takes as the argument.) -/
def TaskFromURLPath (path : String) : String :=
  ⟨goBaseChars (dropTrailing isSepOrBackslash (goCleanChars path.data))⟩

/-- Models `FolderOf` (file `util.go`) applied to a URL with parsed path
component `path`, for home directory `home`, data folder name
`dataFolder` and working directory `cwd`: reject a raw path containing
`".."` outright, else join `home/dataFolder/TaskFromURL(path)`, make it
absolute, and reject it unless its path relative to `home/dataFolder` is
free of `".."`.  `none` models the `FatalCheck` panics; the function
itself creates no directory (it contains no `Mkdir` call). -/
def FolderOfPath (cwd home dataFolder path : String) : Option String :=
  if goContains path ".." then none
  else
    let safePath := goJoinChars [home.data, dataFolder.data]
    let cleanPath := TaskFromURLPath path
    let fullQualifyPath := goAbsChars cwd.data (goJoinChars [home.data, dataFolder.data, cleanPath.data])
    match goRelChars safePath fullQualifyPath with
    | none => none
    | some relative => if goContains ⟨relative⟩ ".." then none else some ⟨fullQualifyPath⟩

/-! ## Range planner (`partCalculate`, file `http.go`) -/

/-- Models `partCalculate(par, len, url)`: `par` parts over a resource of
`len` bytes, part `j` starting at `(len/par)*j` (truncating int64
division), ending at `(len/par)*(j+1)-1` except that the last part's
`RangeTo` is the sentinel `len`; the part file path is
`<folder>/<file>.part<NNNNNN>`.  The Go function computes
`file = TaskFromURL(url)` and `folder = FolderOf(url)` and creates the
folder; the embedding takes the two computed strings as arguments and
has no filesystem effect. -/
def partCalculate (par len : Int) (url file folder : String) : List Part :=
  (List.range par.toNat).map fun (j : Nat) =>
    { Index := (j : Int)
      URL := url
      Path := ⟨goJoinChars [folder.data, file.data ++ ".part".data ++ pad6 j]⟩
      RangeFrom := Int.tdiv len par * (j : Int)
      RangeTo := if (j : Int) < par - 1 then Int.tdiv len par * ((j : Int) + 1) - 1 else len }

/-- The byte range a part is responsible for ends at its `RangeTo`,
except that the last part's sentinel stands for "through the end of the
resource", byte `L - 1`. -/
def effTo (ps : List Part) (L : Int) (i : Nat) : Int :=
  if i + 1 = ps.length then L - 1 else (partAt ps i).RangeTo

/-- A position `k` lies in the effective range of part `i` of the plan. -/
def coversAt (ps : List Part) (L : Int) (i : Nat) (k : Int) : Prop :=
  (partAt ps i).RangeFrom ≤ k ∧ k ≤ effTo ps L i

/-! ## Part worker (`downloadPart` / `buildRequestForPart`, file `http.go`) -/

/-- Models the Range header added by `buildRequestForPart`: only when
downloading in parallel (`par > 1`); an explicit `bytes=<from>-<to>`
when the part's `RangeTo` differs from the downloader's total length,
and the open-ended `bytes=<from>-` when it equals it.  `none` means no
Range header is added to the request. -/
def buildRangeHeader (par len : Int) (part : Part) : Option String :=
  if par > 1 then
    some (if part.RangeTo ≠ len then
            ⟨"bytes=".data ++ renderInt part.RangeFrom ++ ['-'] ++ renderInt part.RangeTo⟩
          else
            ⟨"bytes=".data ++ renderInt part.RangeFrom ++ ['-']⟩)
  else none

/-- Models the `Part` value `downloadPart` sends on the state channel
after the copy finishes, together with the path it sends on the file
channel.  The function mirrors the source faithfully: the local counter
`current` is initialized to `0` and never incremented anywhere in
`downloadPart`, so the emitted `RangeFrom` is `part.RangeFrom + 0`
regardless of how many bytes the copy goroutine wrote. -/
def downloadPartEmit (url : String) (part : Part) : Part × String :=
  let current : Int := 0
  ({ Index := part.Index
     URL := url
     Path := part.Path
     RangeFrom := part.RangeFrom + current
     RangeTo := part.RangeTo }, part.Path)

/-! ## Resume loader (`Resume`, file `task.go`) -/

/-- Models the int64 `min` helper defined alongside the resume loader. -/
def goMin (a b : Int) : Int := if a < b then a else b

/-- Models the part-adjustment loop of `Resume`: for each part whose
file exists with size `s` (`fileSize path = some s`), set
`RangeFrom ← min (RangeFrom + s) RangeTo`; parts whose `os.Stat` fails
(`fileSize path = none`) are left unchanged. -/
def ResumeParts (parts : List Part) (fileSize : String → Option Int) : List Part :=
  parts.map fun part =>
    match fileSize part.Path with
    | none => part
    | some downloaded => { part with RangeFrom := goMin (part.RangeFrom + downloaded) part.RangeTo }

/-- Models `Resume` applied to a successfully read manifest: the state
with each part's `RangeFrom` adjusted by `ResumeParts`. -/
def ResumeState (st : State) (fileSize : String → Option Int) : State :=
  { URL := st.URL, Parts := ResumeParts st.Parts fileSize }

/-- A constant file-size assignment, used to instantiate `ResumeParts`
at concrete inputs. -/
def constSize (n : Int) : String → Option Int := fun _ => some n

/-! ## Download coordinator (`Execute`, file `main.go`)

`Execute`'s select loop serializes the channel events it observes; the
embedding runs the loop body over that serialized list of events. -/

/-- One event observed by `Execute`'s select loop: an OS signal, a path
on the file channel, an error, a part on the state channel, or the
completion notification on the done channel. -/
inductive ExecEvent where
  | signal
  | file (path : String)
  | failure
  | statePart (p : Part)
  | done
deriving DecidableEq, Repr

/-- The loop-local state of `Execute`: the collected part-file paths,
the collected part state updates, and the interrupt flag. -/
structure ExecLoopState where
  files : List String
  parts : List Part
  isInterrupted : Bool
deriving DecidableEq, Repr

/-- How a run of `Execute` ends: still selecting, joined (the joiner ran
over the collected files and the task directory was removed), saved (the
manifest built from the collected part updates was persisted), abandoned
(interrupted but not resumable, exit without saving), or failed
(a worker error arrived and the run panics). -/
inductive ExecOutcome where
  | running (st : ExecLoopState)
  | joined (files : List String)
  | saved (st : State)
  | abandoned
  | failed
deriving DecidableEq, Repr

/-- The effect of one non-terminating event on the loop state (the
`signal`, `fileChan` and `stateChan` arms of the select; `done` and
`failure` end the loop and leave the state unchanged here). -/
def applyEvent (st : ExecLoopState) : ExecEvent → ExecLoopState
  | .signal => { st with isInterrupted := true }
  | .file f => { st with files := st.files ++ [f] }
  | .statePart p => { st with parts := st.parts ++ [p] }
  | .failure => st
  | .done => st

/-- The loop state after a list of non-terminating events. -/
def applyEvents (st : ExecLoopState) (evs : List ExecEvent) : ExecLoopState :=
  evs.foldl applyEvent st

/-- Models `Execute`'s select loop on the serialized event list: signals
set the interrupt flag (and broadcast to workers), file paths and part
updates are collected, an error panics, and the done notification either
saves the manifest (interrupted and resumable), exits silently
(interrupted, not resumable) or joins the collected files and removes
the task directory (not interrupted). -/
def ExecuteLoop (resumable : Bool) (url : String) (st : ExecLoopState) : List ExecEvent → ExecOutcome
  | [] => .running st
  | .signal :: rest => ExecuteLoop resumable url { st with isInterrupted := true } rest
  | .file f :: rest => ExecuteLoop resumable url { st with files := st.files ++ [f] } rest
  | .statePart p :: rest => ExecuteLoop resumable url { st with parts := st.parts ++ [p] } rest
  | .failure :: _ => .failed
  | .done :: _ =>
    if st.isInterrupted then
      if resumable then .saved { URL := url, Parts := st.parts } else .abandoned
    else .joined st.files

/-- The part state updates carried by a list of events, in arrival
order; on completion after an interrupt, `Execute` persists
`State{URL: url, Parts: parts}` where `parts` is exactly this list. -/
def partsOf (evs : List ExecEvent) : List Part :=
  evs.filterMap fun e =>
    match e with
    | .statePart p => some p
    | _ => none

/-- Events that neither end `Execute`'s loop nor panic it. -/
def nonTerminal (e : ExecEvent) : Prop := e ≠ .done ∧ e ≠ .failure

instance (e : ExecEvent) : Decidable (nonTerminal e) := by
  unfold nonTerminal; infer_instance

/-! ## Capability prober (`NewHTTPDownloader`, file `http.go`) -/

/-- The header values and status code of an HTTP response, as read by
the prober (`Header.Get` returns `""` for an absent header). -/
structure ProbeResp where
  statusCode : Int
  acceptRanges : String
  contentLength : String
  contentRange : String
deriving DecidableEq, Repr

/-- ASCII lowering of a string (models `strings.ToLower` on the ASCII
header values the prober inspects). -/
def goToLowerAscii (s : String) : String :=
  ⟨s.data.map fun c => if 'A' ≤ c ∧ c ≤ 'Z' then Char.ofNat (c.toNat + 32) else c⟩

/-- Digit test on a character, as used by decimal parsing. -/
def isDig (c : Char) : Bool := 48 ≤ c.toNat && c.toNat ≤ 57

/-- Numeric value of a digit character. -/
def digVal (c : Char) : Nat := c.toNat - 48

/-- Accumulating decimal scan: consume leading digits, fold them onto
`acc`, return the value and the unconsumed remainder. -/
def parseNatAux (acc : Nat) : List Char → Nat × List Char
  | [] => (acc, [])
  | c :: cs => if isDig c then parseNatAux (acc * 10 + digVal c) cs else (acc, c :: cs)

/-- Largest int64, `2^63 - 1`. -/
def int64Max : Int := 9223372036854775807

/-- Smallest int64, `-2^63`. -/
def int64Min : Int := -9223372036854775808

/-- An integer representable in Go's int64. -/
def isInt64 (i : Int) : Prop := int64Min ≤ i ∧ i ≤ int64Max

instance (i : Int) : Decidable (isInt64 i) := by
  unfold isInt64; infer_instance

/-- All three numeric fields of a part are int64-representable (they are
in any `Part` a Go process can hold). -/
def isInt64Part (p : Part) : Prop := isInt64 p.Index ∧ isInt64 p.RangeFrom ∧ isInt64 p.RangeTo

instance (p : Part) : Decidable (isInt64Part p) := by
  unfold isInt64Part; infer_instance

/-- All parts of a manifest have int64-representable numeric fields. -/
def isInt64State (s : State) : Prop := ∀ p ∈ s.Parts, isInt64Part p

instance (s : State) : Decidable (isInt64State s) := by
  unfold isInt64State; infer_instance

/-- A file-size assignment that reports every file absent, used to
instantiate `ResumeParts` at concrete inputs. -/
def noSize : String → Option Int := fun _ => none

/-- Models `strconv.ParseInt(s, 10, 64)`: an optional sign, at least one
digit, nothing else, and the value must fit in an int64; `none` models
the error return. -/
def goParseInt (s : String) : Option Int :=
  let signed : Bool × List Char :=
    match s.data with
    | '-' :: cs => (true, cs)
    | '+' :: cs => (false, cs)
    | cs => (false, cs)
  match signed.2 with
  | [] => none
  | c :: cs =>
    if isDig c then
      match parseNatAux (digVal c) cs with
      | (v, []) =>
        let i : Int := if signed.1 then -(v : Int) else (v : Int)
        if isInt64 i then some i else none
      | (_, _ :: _) => none
    else none

/-- The `(rangeSupported, lenValue, lengthSpecified)` triple after the
HEAD probe of `NewHTTPDownloader`: range support iff the lowercased
`Accept-Ranges` header contains `"bytes"`; the length is taken from a
non-empty `Content-Length` header that parses to a positive int64.
`none` models a transport error (`err != nil`), after which nothing is
recorded. -/
def headStage (head : Option ProbeResp) : Bool × Int × Bool :=
  match head with
  | none => (false, 0, false)
  | some r =>
    let rs := goContains (goToLowerAscii r.acceptRanges) "bytes"
    let lenSpec : Int × Bool :=
      if r.contentLength ≠ "" then
        match goParseInt r.contentLength with
        | some v => if 0 < v then (v, true) else (0, false)
        | none => (0, false)
      else (0, false)
    (rs, lenSpec.1, lenSpec.2)

/-- The condition under which `NewHTTPDownloader` issues the fallback
GET with `Range: bytes=0-0`: range support not yet confirmed, or length
still unknown. -/
def probeNeeded (rs : Bool) (lenValue : Int) : Bool := !rs || lenValue == 0

/-- The total length carried by a `Content-Range` header value: the
characters after the last `'/'`, if any and non-empty, parsed as a
positive int64 (models the `strings.LastIndex` / `strconv.ParseInt`
steps of the prober, including its `total > 0` guard). -/
def contentRangeTotal (cr : String) : Option Int :=
  let rev := cr.data.reverse
  let revSuffix := rev.takeWhile fun c => c ≠ '/'
  if revSuffix.length = cr.data.length then none
  else if revSuffix = [] then none
  else
    match goParseInt ⟨revSuffix.reverse⟩ with
    | some total => if 0 < total then some total else none
    | none => none

/-- The `(rangeSupported, lenValue, lengthSpecified)` triple after the
fallback range GET: when the probe is needed and a response arrives, a
206 status confirms range support and takes the total from
`Content-Range`; any other status clears range support and falls back to
a positive `Content-Length` if present.  `get = none` models a transport
error (`derr != nil`), after which nothing is recorded. -/
def midStage (head get : Option ProbeResp) : Bool × Int × Bool :=
  let h := headStage head
  if probeNeeded h.1 h.2.1 then
    match get with
    | none => h
    | some pr =>
      if pr.statusCode = 206 then
        match contentRangeTotal pr.contentRange with
        | some total => (true, total, true)
        | none => (true, h.2.1, h.2.2)
      else
        let fallback : Int × Bool :=
          if pr.contentLength ≠ "" then
            match goParseInt pr.contentLength with
            | some v => if 0 < v then (v, true) else h.2
            | none => h.2
          else h.2
        (false, fallback.1, fallback.2)
  else h

/-- The quantities `NewHTTPDownloader` derives from probing that the
claims are about. -/
structure ProberOut where
  rangeSupported : Bool
  lenValue : Int
  lengthSpecified : Bool
  par : Int
  resumable : Bool
  probeAttempted : Bool
deriving DecidableEq, Repr

/-- Models the probing portion of `NewHTTPDownloader`: the HEAD stage,
the conditional fallback range GET, then the final adjustments — no
range support forces parallelism 1; an unknown length forces parallelism
1, the sentinel length 1, and a non-resumable task. -/
def NewHTTPDownloaderProbe (head get : Option ProbeResp) (par : Int) : ProberOut :=
  let h := headStage head
  let m := midStage head get
  let par1 := if m.1 then par else 1
  if m.2.1 = 0 then
    { rangeSupported := m.1, lenValue := 1, lengthSpecified := m.2.2
      par := 1, resumable := false, probeAttempted := probeNeeded h.1 h.2.1 }
  else
    { rangeSupported := m.1, lenValue := m.2.1, lengthSpecified := m.2.2
      par := par1, resumable := true, probeAttempted := probeNeeded h.1 h.2.1 }

/-! ## Manifest serialization (`State.Save` / `Read`, file `state.go`)

`Save` writes `json.Marshal(state)` to `state.json`; `Read` returns
`json.Unmarshal` of that file's bytes.  The encoder below reproduces
`encoding/json.Marshal` for the `State`/`Part` shape (struct fields in
declaration order, strings escaped with the package's HTML-safe escaping,
int64s in decimal); the decoder models `encoding/json.Unmarshal` on the
documents `Marshal` produces for this shape (the field order `Marshal`
emits, no interleaved whitespace, the escape forms of JSON strings, and
the int64 overflow check of its number decoding).  Go strings are valid
UTF-8 here, so characters stand in for byte runs. -/

/-- Hexadecimal value of a character, if any. -/
def hexVal (c : Char) : Option Nat :=
  if 48 ≤ c.toNat ∧ c.toNat ≤ 57 then some (c.toNat - 48)
  else if 97 ≤ c.toNat ∧ c.toNat ≤ 102 then some (c.toNat - 87)
  else if 65 ≤ c.toNat ∧ c.toNat ≤ 70 then some (c.toNat - 55)
  else none

/-- The escaping `encoding/json.Marshal` applies to one character of a
string (with its default HTML escaping): `"` `\` and the named control
characters get two-character escapes, other controls and `<` `>` `&` get
`\u00xx` (lowercase hex), the line separators U+2028/U+2029 get `\u202x`,
and everything else is emitted verbatim. -/
def jsonEscapeChar (c : Char) : List Char :=
  if c = '"' then ['\\', '"']
  else if c = '\\' then ['\\', '\\']
  else if c = '\n' then ['\\', 'n']
  else if c = '\r' then ['\\', 'r']
  else if c = '\t' then ['\\', 't']
  else if c.toNat < 32 ∨ c = '<' ∨ c = '>' ∨ c = '&' then
    ['\\', 'u', '0', '0', Nat.digitChar (c.toNat / 16), Nat.digitChar (c.toNat % 16)]
  else if c.toNat = 8232 ∨ c.toNat = 8233 then
    ['\\', 'u', '2', '0', '2', Nat.digitChar (c.toNat % 16)]
  else [c]

/-- A JSON string literal for `s`, as emitted by `encoding/json.Marshal`. -/
def jsonEncodeString (s : String) : List Char :=
  '"' :: (s.data.flatMap jsonEscapeChar) ++ ['"']

/-- The JSON object `Marshal` emits for a `Part` (fields in declaration
order: Index, URL, Path, RangeFrom, RangeTo). -/
def encodePart (p : Part) : List Char :=
  "\x7b\"Index\":".data ++ renderInt p.Index
    ++ ",\"URL\":".data ++ jsonEncodeString p.URL
    ++ ",\"Path\":".data ++ jsonEncodeString p.Path
    ++ ",\"RangeFrom\":".data ++ renderInt p.RangeFrom
    ++ ",\"RangeTo\":".data ++ renderInt p.RangeTo
    ++ "\x7d".data

/-- The JSON document `Marshal` emits for a `State` (a non-nil `Parts`
slice becomes a JSON array). -/
def jsonEncodeState (s : State) : List Char :=
  "\x7b\"URL\":".data ++ jsonEncodeString s.URL
    ++ ",\"Parts\":[".data ++ List.intercalate [','] (s.Parts.map encodePart)
    ++ "]\x7d".data

/-- Consume an expected literal character sequence from the input. -/
def parseLit : List Char → List Char → Option (List Char)
  | [], cs => some cs
  | _ :: _, [] => none
  | l :: ls, c :: cs => if c = l then parseLit ls cs else none

/-- Scan the body of a JSON string literal (after its opening quote),
undoing the escape forms; `acc` holds the decoded characters in reverse.
Raw control characters are rejected, as `Unmarshal` rejects them. -/
def parseJStringBody : List Char → List Char → Option (String × List Char)
  | [], _ => none
  | c :: cs, acc =>
    if c = '"' then some (⟨acc.reverse⟩, cs)
    else if c = '\\' then
      match cs with
      | [] => none
      | e :: cs2 =>
        if e = '"' then parseJStringBody cs2 ('"' :: acc)
        else if e = '\\' then parseJStringBody cs2 ('\\' :: acc)
        else if e = '/' then parseJStringBody cs2 ('/' :: acc)
        else if e = 'n' then parseJStringBody cs2 ('\n' :: acc)
        else if e = 'r' then parseJStringBody cs2 ('\r' :: acc)
        else if e = 't' then parseJStringBody cs2 ('\t' :: acc)
        else if e = 'b' then parseJStringBody cs2 ('\x08' :: acc)
        else if e = 'f' then parseJStringBody cs2 ('\x0c' :: acc)
        else if e = 'u' then
          match cs2 with
          | h1 :: h2 :: h3 :: h4 :: cs3 =>
            match hexVal h1, hexVal h2, hexVal h3, hexVal h4 with
            | some d1, some d2, some d3, some d4 =>
              parseJStringBody cs3 (Char.ofNat (((d1 * 16 + d2) * 16 + d3) * 16 + d4) :: acc)
            | _, _, _, _ => none
          | _ => none
        else none
    else if c.toNat < 32 then none
    else parseJStringBody cs (c :: acc)

/-- Parse a JSON string literal. -/
def parseJString : List Char → Option (String × List Char)
  | [] => none
  | c :: cs => if c = '"' then parseJStringBody cs [] else none

/-- Parse a decimal JSON integer into an int64-range value (models the
number decoding `Unmarshal` performs for an int64 field, including its
overflow error). -/
def parseJInt : List Char → Option (Int × List Char)
  | [] => none
  | c :: cs =>
    if c = '-' then
      match cs with
      | [] => none
      | d :: cs2 =>
        if isDig d then
          let vr := parseNatAux (digVal d) cs2
          if int64Min ≤ -(vr.1 : Int) then some (-(vr.1 : Int), vr.2) else none
        else none
    else if isDig c then
      let vr := parseNatAux (digVal c) cs
      if (vr.1 : Int) ≤ int64Max then some ((vr.1 : Int), vr.2) else none
    else none

/-- Parse one `Part` object. -/
def parsePart (cs : List Char) : Option (Part × List Char) := do
  let cs ← parseLit "\x7b\"Index\":".data cs
  let (idx, cs) ← parseJInt cs
  let cs ← parseLit ",\"URL\":".data cs
  let (url, cs) ← parseJString cs
  let cs ← parseLit ",\"Path\":".data cs
  let (path, cs) ← parseJString cs
  let cs ← parseLit ",\"RangeFrom\":".data cs
  let (rfrom, cs) ← parseJInt cs
  let cs ← parseLit ",\"RangeTo\":".data cs
  let (rto, cs) ← parseJInt cs
  let cs ← parseLit "\x7d".data cs
  return ({ Index := idx, URL := url, Path := path, RangeFrom := rfrom, RangeTo := rto }, cs)

/-- Parse a non-empty comma-separated run of `Part` objects, up to and
including the closing `']'`.  The fuel bounds the number of elements. -/
def parsePartsList : Nat → List Char → Option (List Part × List Char)
  | 0, _ => none
  | fuel + 1, cs =>
    match parsePart cs with
    | none => none
    | some (p, cs1) =>
      match cs1 with
      | [] => none
      | c :: cs2 =>
        if c = ',' then
          match parsePartsList fuel cs2 with
          | none => none
          | some (ps, r) => some (p :: ps, r)
        else if c = ']' then some ([p], cs2)
        else none

/-- Parse a JSON array of `Part` objects. -/
def parsePartsArr : Nat → List Char → Option (List Part × List Char)
  | _, [] => none
  | fuel, c :: cs =>
    if c = '[' then
      match cs with
      | [] => none
      | d :: cs2 => if d = ']' then some ([], cs2) else parsePartsList fuel (d :: cs2)
    else none

/-- Parse a complete `State` document with nothing left over (models
`json.Unmarshal` of the `state.json` contents into a `State`). -/
def jsonDecodeState (cs : List Char) : Option State := do
  let cs1 ← parseLit "\x7b\"URL\":".data cs
  let (url, cs2) ← parseJString cs1
  let cs3 ← parseLit ",\"Parts\":".data cs2
  let (ps, cs4) ← parsePartsArr cs3.length cs3
  let cs5 ← parseLit "\x7d".data cs4
  match cs5 with
  | [] => return { URL := url, Parts := ps }
  | _ :: _ => none

/-! # Theorems

Helper lemmas first, then one theorem per specification claim (with a
witness instantiation where the claim theorem carries hypotheses). -/

/-! ## Decimal rendering -/

theorem natDecF_congr : ∀ (f g n : Nat), n < f → n < g → natDecF f n = natDecF g n := by
  intro f
  induction f with
  | zero => intro g n hf _; omega
  | succ f ih =>
    intro g n hf hg
    cases g with
    | zero => omega
    | succ g =>
      simp only [natDecF]
      by_cases h10 : n < 10
      · simp [h10]
      · have hd : n / 10 < n := Nat.div_lt_self (by omega) (by omega)
        simp only [h10, if_false]
        rw [ih g (n / 10) (by omega) (by omega)]

/-- The defining recurrence of `natDec`. -/
theorem natDec_eq (n : Nat) :
    natDec n = if n < 10 then [Nat.digitChar n] else natDec (n / 10) ++ [Nat.digitChar (n % 10)] := by
  unfold natDec
  rw [show natDecF (n + 1) n = if n < 10 then [Nat.digitChar n]
        else natDecF n (n / 10) ++ [Nat.digitChar (n % 10)] from rfl]
  by_cases h10 : n < 10
  · simp [h10]
  · have hd : n / 10 < n := Nat.div_lt_self (by omega) (by omega)
    simp only [h10, if_false]
    rw [natDecF_congr n (n / 10 + 1) (n / 10) (by omega) (by omega)]

theorem digit_facts : ∀ d : Nat, d < 10 →
    isDig (Nat.digitChar d) = true ∧ digVal (Nat.digitChar d) = d ∧ Nat.digitChar d ≠ '-' := by
  decide

theorem natDec_ne_nil (n : Nat) : natDec n ≠ [] := by
  rw [natDec_eq]; split <;> simp

theorem natDec_all_dig (n : Nat) : ∀ c ∈ natDec n, isDig c = true := by
  induction n using Nat.strong_induction_on with
  | _ n ih =>
    rw [natDec_eq]
    by_cases h10 : n < 10
    · simp only [h10, if_true, List.mem_singleton]
      rintro c rfl
      exact (digit_facts n h10).1
    · have hd : n / 10 < n := Nat.div_lt_self (by omega) (by omega)
      simp only [h10, if_false, List.mem_append, List.mem_singleton]
      rintro c (hc | rfl)
      · exact ih (n / 10) hd c hc
      · exact (digit_facts (n % 10) (by omega)).1

theorem parseNatAux_enc (n : Nat) : ∀ (a : Nat) (rest : List Char),
    parseNatAux a (natDec n ++ rest) = parseNatAux (a * 10 ^ (natDec n).length + n) rest := by
  induction n using Nat.strong_induction_on with
  | _ n ih =>
    intro a rest
    rw [natDec_eq]
    by_cases h10 : n < 10
    · simp only [h10, if_true, List.singleton_append, List.length_singleton, parseNatAux,
        (digit_facts n h10).1, if_true, (digit_facts n h10).2.1, pow_one]
    · have hd : n / 10 < n := Nat.div_lt_self (by omega) (by omega)
      simp only [h10, if_false, List.append_assoc, List.singleton_append, List.length_append,
        List.length_singleton]
      rw [ih (n / 10) hd a (Nat.digitChar (n % 10) :: rest)]
      have hm : n % 10 < 10 := by omega
      simp only [parseNatAux, (digit_facts (n % 10) hm).1, if_true, (digit_facts (n % 10) hm).2.1]
      congr 1
      rw [pow_succ, ← mul_assoc]
      have h1 : (a * 10 ^ (natDec (n / 10)).length + n / 10) * 10 + n % 10 =
          a * 10 ^ (natDec (n / 10)).length * 10 + (n / 10 * 10 + n % 10) := by ring
      rw [h1]
      omega

theorem parseNatAux_stop (a : Nat) (rest : List Char)
    (h : ∀ c, rest.head? = some c → isDig c = false) : parseNatAux a rest = (a, rest) := by
  cases rest with
  | nil => rfl
  | cons c cs => simp [parseNatAux, h c rfl]

/-- Rendering then scanning a decimal number returns it, together with a
remainder that does not begin with a digit. -/
theorem parseNat_enc (n : Nat) (rest : List Char)
    (h : ∀ c, rest.head? = some c → isDig c = false) :
    parseNatAux 0 (natDec n ++ rest) = (n, rest) := by
  rw [parseNatAux_enc n 0 rest, parseNatAux_stop _ rest h]
  simp

/-! ## C2: the worker's emitted `RangeFrom` (code bug) -/

/-- C2: the claim states that on normal completion the worker emits a
part whose `RangeFrom` is the original `RangeFrom` plus the bytes
written.  The code instead emits the original `RangeFrom` unchanged: the
counter `current` that the emission adds is initialized to `0` and never
incremented, although the source comments it with "update the downloaded
offset" and §9 of the specification flags the slip.  At the concrete
failing input — a part starting at byte `0` whose body transfer wrote
`5` bytes — the emitted `RangeFrom` is `0`, not `0 + 5`. -/
theorem downloadPart_emits_stale_rangeFrom :
    (downloadPartEmit "http://example.com/f" ⟨0, "http://example.com/f", "f.part000000", 0, 100⟩).1.RangeFrom = 0
    ∧ (downloadPartEmit "http://example.com/f" ⟨0, "http://example.com/f", "f.part000000", 0, 100⟩).2 = "f.part000000"
    ∧ (0 : Int) ≠ 0 + 5 := by
  refine ⟨rfl, rfl, by decide⟩

/-! ## C5: the Range header of a part request -/

/-- C5: the request built for a part carries
`Range: bytes=<from>-<to>` when parallelism exceeds 1 and the part's
`RangeTo` differs from the total length, the open-ended
`Range: bytes=<from>-` when parallelism exceeds 1 and `RangeTo` equals
the total length (the sentinel last part), and no Range header at all
when parallelism is 1. -/
theorem buildRequest_range_header (par len : Int) (part : Part) :
    (par > 1 → part.RangeTo ≠ len →
      buildRangeHeader par len part =
        some ⟨"bytes=".data ++ renderInt part.RangeFrom ++ ['-'] ++ renderInt part.RangeTo⟩)
    ∧ (par > 1 → part.RangeTo = len →
      buildRangeHeader par len part =
        some ⟨"bytes=".data ++ renderInt part.RangeFrom ++ ['-']⟩)
    ∧ (par = 1 → buildRangeHeader par len part = none) := by
  refine ⟨fun h1 h2 => ?_, fun h1 h2 => ?_, fun h1 => ?_⟩
  · simp [buildRangeHeader, h1, h2]
  · simp [buildRangeHeader, h1, h2]
  · simp only [buildRangeHeader, h1]
    norm_num

/-- Witness for C5 at the inputs of the repository's
`TestBuildRequestForPart`: a middle part `[50,99]` of a 200-byte
resource at parallelism 3, the sentinel last part `[100,200]`, and a
part at parallelism 1. -/
theorem buildRequest_range_header_witness :
    buildRangeHeader 3 200 ⟨1, "u", "p", 50, 99⟩ = some "bytes=50-99"
    ∧ buildRangeHeader 3 200 ⟨2, "u", "p", 100, 200⟩ = some "bytes=100-"
    ∧ buildRangeHeader 1 100 ⟨0, "u", "p", 0, 100⟩ = none := by
  refine ⟨?_, ?_, ?_⟩
  · rw [(buildRequest_range_header 3 200 ⟨1, "u", "p", 50, 99⟩).1 (by norm_num) (by decide)]
    rw [show renderInt 50 = natDec 50 from rfl, show renderInt 99 = natDec 99 from rfl]
    rw [natDec_eq, natDec_eq]
    norm_num
    rfl
  · rw [(buildRequest_range_header 3 200 ⟨2, "u", "p", 100, 200⟩).2.1 (by norm_num) (by decide)]
    rw [show renderInt 100 = natDec 100 from rfl]
    rw [natDec_eq, natDec_eq, natDec_eq]
    norm_num
    rfl
  · exact (buildRequest_range_header 1 100 ⟨0, "u", "p", 0, 100⟩).2.2 rfl

/-! ## C1: how `Resume` adjusts `range_from` -/

/-- C1 counterexample: the claim states that for the sentinel last part
(whose `RangeTo` is the total length) `Resume` clamps the new
`range_from` to `total_length - 1`.  Concretely, for a manifest whose
last part is the sentinel part `[0, 10]` of a 10-byte resource and whose
part file holds 10 bytes, the claim predicts
`min(0 + 10, 10 - 1) = 9`; the code computes
`min(RangeFrom + size, RangeTo)` for every part, giving `10`. -/
theorem Resume_sentinel_clamp_counterexample :
    partAt (ResumeParts [⟨1, "u", "p1", 0, 10⟩] (constSize 10)) 0 = ⟨1, "u", "p1", 10, 10⟩
    ∧ goMin (0 + 10) (10 - 1) = 9
    ∧ (10 : Int) ≠ 9 := by
  refine ⟨rfl, by decide, by decide⟩

/-- C1 (amended): for every loaded manifest and every part, if the
part's file exists with size `s` then `Resume` sets its `RangeFrom` to
`min (RangeFrom + s) RangeTo` — the clamp is the part's own `RangeTo`
for all parts, including the sentinel last part (where it equals the
total length, not the total length minus one) — and a part whose file is
absent is left entirely unchanged. -/
theorem Resume_adjusts_rangeFrom (parts : List Part) (fileSize : String → Option Int)
    (i : Nat) (hi : i < parts.length) :
    (∀ s, fileSize (partAt parts i).Path = some s →
      partAt (ResumeParts parts fileSize) i =
        { partAt parts i with
            RangeFrom := goMin ((partAt parts i).RangeFrom + s) (partAt parts i).RangeTo })
    ∧ (fileSize (partAt parts i).Path = none →
      partAt (ResumeParts parts fileSize) i = partAt parts i) := by
  have hmap : partAt (ResumeParts parts fileSize) i =
      (fun part =>
        match fileSize part.Path with
        | none => part
        | some downloaded =>
          { part with RangeFrom := goMin (part.RangeFrom + downloaded) part.RangeTo })
        (partAt parts i) := by
    unfold ResumeParts partAt
    rw [List.getD_eq_getElem?_getD, List.getD_eq_getElem?_getD, List.getElem?_map,
      List.getElem?_eq_getElem hi]
    rfl
  constructor
  · intro s hs
    rw [hmap]
    simp only [hs]
  · intro hs
    rw [hmap]
    simp only [hs]

/-- Witness for the amended C1 at concrete inputs: a part `[0, 4]`
whose file holds 2 bytes is advanced to `RangeFrom = 2`; the same part
with its file absent is unchanged. -/
theorem Resume_adjusts_rangeFrom_witness :
    partAt (ResumeParts [⟨0, "u", "pA", 0, 4⟩] (constSize 2)) 0 = ⟨0, "u", "pA", 2, 4⟩
    ∧ partAt (ResumeParts [⟨0, "u", "pA", 0, 4⟩] noSize) 0 = ⟨0, "u", "pA", 0, 4⟩ := by
  constructor
  · rw [(Resume_adjusts_rangeFrom [⟨0, "u", "pA", 0, 4⟩] (constSize 2) 0 (by decide)).1 2 rfl]
    decide
  · rw [(Resume_adjusts_rangeFrom [⟨0, "u", "pA", 0, 4⟩] noSize 0 (by decide)).2 rfl]
    decide

/-! ## C10: `Resume` mutates only `RangeFrom` -/

/-- C10: `Resume` leaves the manifest's URL unchanged and, part by part
in order (so in particular the number and order of parts are unchanged),
leaves `Index`, `URL`, `Path` and `RangeTo` unchanged; only `RangeFrom`
is adjusted. -/
theorem Resume_frame (st : State) (fileSize : String → Option Int) :
    (ResumeState st fileSize).URL = st.URL
    ∧ List.Forall₂
        (fun p q => p.Index = q.Index ∧ p.URL = q.URL ∧ p.Path = q.Path ∧ p.RangeTo = q.RangeTo)
        st.Parts (ResumeState st fileSize).Parts := by
  constructor
  · rfl
  · show List.Forall₂ _ st.Parts (ResumeParts st.Parts fileSize)
    unfold ResumeParts
    rw [List.forall₂_map_right_iff]
    rw [List.forall₂_same]
    intro p _
    cases hfs : fileSize p.Path <;> simp

/-! ## C9: the joiner never runs after an observed interrupt -/

theorem ExecuteLoop_interrupted_ne_joined (resumable : Bool) (url : String) :
    ∀ (evs : List ExecEvent) (st : ExecLoopState), st.isInterrupted = true →
      ∀ files, ExecuteLoop resumable url st evs ≠ ExecOutcome.joined files := by
  intro evs
  induction evs with
  | nil => intro st h files; simp [ExecuteLoop]
  | cons e rest ih =>
    intro st h files
    cases e with
    | signal =>
      show ExecuteLoop resumable url { st with isInterrupted := true } rest ≠ _
      exact ih _ rfl files
    | file f =>
      exact ih { st with files := st.files ++ [f] } h files
    | statePart p =>
      exact ih { st with parts := st.parts ++ [p] } h files
    | failure => simp [ExecuteLoop]
    | done => simp [ExecuteLoop, h]; split <;> simp

theorem ExecuteLoop_append_nonterminal (resumable : Bool) (url : String) :
    ∀ (pre : List ExecEvent) (st : ExecLoopState), (∀ e ∈ pre, nonTerminal e) →
      ∀ post, ExecuteLoop resumable url st (pre ++ post) =
        ExecuteLoop resumable url (applyEvents st pre) post := by
  intro pre
  induction pre with
  | nil => intro st _ post; rfl
  | cons e rest ih =>
    intro st hnt post
    have he : nonTerminal e := hnt e (List.mem_cons_self e rest)
    have hr : ∀ x ∈ rest, nonTerminal x := fun x hx => hnt x (List.mem_cons_of_mem e hx)
    cases e with
    | signal => exact ih _ hr post
    | file f => exact ih _ hr post
    | statePart p => exact ih _ hr post
    | failure => exact absurd rfl he.2
    | done => exact absurd rfl he.1

theorem applyEvents_interrupted_mono :
    ∀ (evs : List ExecEvent) (st : ExecLoopState), st.isInterrupted = true →
      (applyEvents st evs).isInterrupted = true := by
  intro evs
  induction evs with
  | nil => intro st h; exact h
  | cons e rest ih =>
    intro st h
    show (applyEvents (applyEvent st e) rest).isInterrupted = true
    cases e with
    | signal => exact ih _ rfl
    | file f => exact ih _ h
    | statePart p => exact ih _ h
    | failure => exact ih _ h
    | done => exact ih _ h

theorem applyEvents_parts :
    ∀ (evs : List ExecEvent) (st : ExecLoopState),
      (applyEvents st evs).parts = st.parts ++ partsOf evs := by
  intro evs
  induction evs with
  | nil => intro st; simp [applyEvents, partsOf]
  | cons e rest ih =>
    intro st
    cases e <;> simp [applyEvents, partsOf, List.filterMap_cons] <;>
      simp [applyEvents, partsOf] at ih <;> rw [ih] <;> simp [applyEvent]

/-- C9: in `Execute`'s event loop, the joiner never runs once a
cancellation has been observed, and completion after an observed
interrupt with a resumable task saves the manifest built from the
collected per-part state updates instead.  Part one: if the loop
processes an interrupt signal (the events before it neither complete nor
fail the run), the outcome is never `joined`.  Part two: when the run
then completes (`done`) and the task is resumable, the outcome is
exactly `saved` with the manifest assembled from the state-channel
updates, not `joined`. -/
theorem Execute_no_join_after_interrupt :
    (∀ (resumable : Bool) (url : String) (pre post : List ExecEvent) (files : List String),
      (∀ e ∈ pre, nonTerminal e) →
      ExecuteLoop resumable url ⟨[], [], false⟩ (pre ++ ExecEvent.signal :: post) ≠
        ExecOutcome.joined files)
    ∧ (∀ (url : String) (pre mid : List ExecEvent),
      (∀ e ∈ pre, nonTerminal e) → (∀ e ∈ mid, nonTerminal e) →
      ExecuteLoop true url ⟨[], [], false⟩
          (pre ++ ExecEvent.signal :: (mid ++ [ExecEvent.done])) =
        ExecOutcome.saved ⟨url, partsOf pre ++ partsOf mid⟩) := by
  constructor
  · intro resumable url pre post files hpre
    rw [ExecuteLoop_append_nonterminal resumable url pre _ hpre]
    show ExecuteLoop resumable url _ (ExecEvent.signal :: post) ≠ _
    rw [show ExecuteLoop resumable url (applyEvents ⟨[], [], false⟩ pre)
          (ExecEvent.signal :: post) =
        ExecuteLoop resumable url
          { applyEvents ⟨[], [], false⟩ pre with isInterrupted := true } post from rfl]
    exact ExecuteLoop_interrupted_ne_joined resumable url post _ rfl files
  · intro url pre mid hpre hmid
    rw [ExecuteLoop_append_nonterminal true url pre _ hpre]
    show ExecuteLoop true url _ (ExecEvent.signal :: (mid ++ [ExecEvent.done])) = _
    rw [show ExecuteLoop true url (applyEvents ⟨[], [], false⟩ pre)
          (ExecEvent.signal :: (mid ++ [ExecEvent.done])) =
        ExecuteLoop true url
          { applyEvents ⟨[], [], false⟩ pre with isInterrupted := true } (mid ++ [ExecEvent.done])
        from rfl]
    rw [ExecuteLoop_append_nonterminal true url mid _ hmid]
    have hint : (applyEvents
        { applyEvents ⟨[], [], false⟩ pre with isInterrupted := true } mid).isInterrupted = true :=
      applyEvents_interrupted_mono mid _ rfl
    show ExecuteLoop true url _ [ExecEvent.done] = _
    simp only [ExecuteLoop, hint, if_true]
    congr 1
    have h2 := applyEvents_parts mid
      { applyEvents ⟨([] : List String), ([] : List Part), false⟩ pre with isInterrupted := true }
    have h1 := applyEvents_parts pre (⟨[], [], false⟩ : ExecLoopState)
    simp only [h2]
    congr 1
    simpa using h1

/-- Witness for C9: a run whose events are a collected file path, the
interrupt signal, one part state update, and completion does not join
and saves exactly the one collected part. -/
theorem Execute_no_join_after_interrupt_witness :
    ExecuteLoop true "u" ⟨[], [], false⟩
        [ExecEvent.file "a", ExecEvent.signal, ExecEvent.done] ≠ ExecOutcome.joined ["a"]
    ∧ ExecuteLoop true "u" ⟨[], [], false⟩
        [ExecEvent.file "a", ExecEvent.signal, ExecEvent.statePart ⟨0, "u", "p", 3, 9⟩,
          ExecEvent.done] =
      ExecOutcome.saved ⟨"u", [⟨0, "u", "p", 3, 9⟩]⟩ := by
  constructor
  · have h := Execute_no_join_after_interrupt.1 true "u" [ExecEvent.file "a"] [ExecEvent.done]
      ["a"] (by decide)
    simpa using h
  · have h := Execute_no_join_after_interrupt.2 "u" [ExecEvent.file "a"]
      [ExecEvent.statePart ⟨0, "u", "p", 3, 9⟩] (by decide) (by decide)
    simpa [partsOf] using h

/-! ## C3: the range plan -/

theorem partCalculate_length (N L : Int) (u f fo : String) :
    (partCalculate N L u f fo).length = N.toNat := by
  simp [partCalculate]

theorem partAt_partCalculate (N L : Int) (u f fo : String) (i : Nat) (hi : i < N.toNat) :
    partAt (partCalculate N L u f fo) i =
      { Index := (i : Int), URL := u,
        Path := ⟨goJoinChars [fo.data, f.data ++ ".part".data ++ pad6 i]⟩,
        RangeFrom := Int.tdiv L N * (i : Int),
        RangeTo := if (i : Int) < N - 1 then Int.tdiv L N * ((i : Int) + 1) - 1 else L } := by
  unfold partCalculate partAt
  rw [List.getD_eq_getElem?_getD, List.getElem?_map]
  simp [List.getElem?_range, hi]

theorem planCoverage (N L : Int) (hN : 1 ≤ N) (hL : 0 ≤ L) (u f fo : String) (k : Int)
    (h0 : 0 ≤ k) (hk : k < L) :
    ∃! i : Nat, i < N.toNat ∧ coversAt (partCalculate N L u f fo) L i k := by
  have hNpos : (0 : Int) < N := by omega
  have hNcast : ((N.toNat : Int)) = N := Int.toNat_of_nonneg (by omega)
  have htd : Int.tdiv L N = L / N := Int.tdiv_eq_ediv hL (by omega)
  set q := L / N with hqdef
  have hq0 : 0 ≤ q := Int.ediv_nonneg hL (by omega)
  have hcov : ∀ i : Nat, i < N.toNat →
      (coversAt (partCalculate N L u f fo) L i k ↔
        (q * (i : Int) ≤ k ∧ (if i + 1 = N.toNat then k ≤ L - 1 else k ≤ q * ((i : Int) + 1) - 1))) := by
    intro i hi
    unfold coversAt effTo
    rw [partAt_partCalculate N L u f fo i hi, partCalculate_length, htd]
    by_cases hlast : i + 1 = N.toNat
    · have : ¬ ((i : Int) < N - 1) := by omega
      simp [hlast, this]
    · have : (i : Int) < N - 1 := by omega
      simp [hlast, this]
  have hqmul : q * N ≤ L := by
    have := Int.ediv_mul_le L (show N ≠ 0 by omega)
    linarith [this]
  by_cases hlast : q * (N - 1) ≤ k
  · refine ⟨N.toNat - 1, ⟨by omega, ?_⟩, ?_⟩
    · rw [hcov (N.toNat - 1) (by omega)]
      have hcast1 : (((N.toNat - 1 : Nat) : Int)) = N - 1 := by omega
      constructor
      · rw [hcast1]; exact hlast
      · have : N.toNat - 1 + 1 = N.toNat := by omega
        simp [this]; omega
    · rintro j ⟨hj, hcovj⟩
      rw [hcov j hj] at hcovj
      by_cases hj1 : j + 1 = N.toNat
      · omega
      · exfalso
        rw [if_neg hj1] at hcovj
        have hle : (j : Int) + 1 ≤ N - 1 := by omega
        have := mul_le_mul_of_nonneg_left hle hq0
        linarith [hcovj.1, hcovj.2]
  · push_neg at hlast
    have hqpos : 0 < q := by
      rcases eq_or_lt_of_le hq0 with h | h
      · exfalso; rw [← h] at hlast; simp at hlast; omega
      · exact h
    set d := k / q with hddef
    have hd0 : 0 ≤ d := Int.ediv_nonneg h0 hq0
    have hdcast : ((d.toNat : Int)) = d := Int.toNat_of_nonneg hd0
    have hqd : q * d ≤ k := by
      have := Int.ediv_mul_le k (show q ≠ 0 by omega)
      linarith [this]
    have hkd : k < q * (d + 1) := by
      have h1 := Int.emod_lt_of_pos k hqpos
      have h2 := Int.ediv_add_emod k q
      nlinarith [h1, h2]
    have hdN : d < N - 1 := by
      by_contra hcon
      push_neg at hcon
      have := mul_le_mul_of_nonneg_left hcon hq0
      linarith
    refine ⟨d.toNat, ⟨by omega, ?_⟩, ?_⟩
    · rw [hcov d.toNat (by omega)]
      have hne : ¬ (d.toNat + 1 = N.toNat) := by omega
      rw [if_neg hne, hdcast]
      exact ⟨hqd, by linarith⟩
    · rintro j ⟨hj, hcovj⟩
      rw [hcov j hj] at hcovj
      by_cases hj1 : j + 1 = N.toNat
      · exfalso
        rw [if_pos hj1] at hcovj
        have hcast1 : (j : Int) = N - 1 := by omega
        rw [hcast1] at hcovj
        linarith [hcovj.1]
      · rw [if_neg hj1] at hcovj
        have hle : (j : Int) ≤ d := by
          rw [hddef, Int.le_ediv_iff_mul_le hqpos]
          linarith [hcovj.1]
        have hge : d < (j : Int) + 1 := by
          rw [hddef, Int.ediv_lt_iff_lt_mul hqpos]
          nlinarith [hcovj.2]
        omega

/-- C3: for parallelism `N ≥ 1` and total length `L ≥ 0`,
`partCalculate` returns exactly `N` parts where part `i < N-1` has
`range_from = (L/N)*i` and `range_to = (L/N)*(i+1)-1` (truncating
integer division) and part `N-1` has `range_from = (L/N)*(N-1)` and the
sentinel `range_to = L`; consequently the parts cover `[0, L)` exactly
once (each position lies in the effective range of exactly one part),
each non-last part has size `L/N`, and the last part absorbs the
remainder `L - (L/N)*(N-1)`. -/
theorem partCalculate_spec (N L : Int) (url file folder : String) (hN : 1 ≤ N) (hL : 0 ≤ L) :
    (partCalculate N L url file folder).length = N.toNat
    ∧ (∀ i : Nat, i < N.toNat →
        (partAt (partCalculate N L url file folder) i).RangeFrom = Int.tdiv L N * (i : Int))
    ∧ (∀ i : Nat, i + 1 < N.toNat →
        (partAt (partCalculate N L url file folder) i).RangeTo = Int.tdiv L N * ((i : Int) + 1) - 1)
    ∧ (partAt (partCalculate N L url file folder) (N.toNat - 1)).RangeTo = L
    ∧ (∀ i : Nat, i + 1 < N.toNat →
        (partAt (partCalculate N L url file folder) i).RangeTo -
          (partAt (partCalculate N L url file folder) i).RangeFrom + 1 = Int.tdiv L N)
    ∧ ((L - 1) - (partAt (partCalculate N L url file folder) (N.toNat - 1)).RangeFrom + 1 =
        L - Int.tdiv L N * (N - 1))
    ∧ (∀ k : Int, 0 ≤ k → k < L →
        ∃! i : Nat, i < N.toNat ∧ coversAt (partCalculate N L url file folder) L i k) := by
  have hNcast : ((N.toNat : Int)) = N := Int.toNat_of_nonneg (by omega)
  have hfrom : ∀ i : Nat, i < N.toNat →
      (partAt (partCalculate N L url file folder) i).RangeFrom = Int.tdiv L N * (i : Int) := by
    intro i hi
    rw [partAt_partCalculate N L url file folder i hi]
  have hto : ∀ i : Nat, i + 1 < N.toNat →
      (partAt (partCalculate N L url file folder) i).RangeTo = Int.tdiv L N * ((i : Int) + 1) - 1 := by
    intro i hi
    rw [partAt_partCalculate N L url file folder i (by omega)]
    have : (i : Int) < N - 1 := by omega
    simp [this]
  have hlastto : (partAt (partCalculate N L url file folder) (N.toNat - 1)).RangeTo = L := by
    rw [partAt_partCalculate N L url file folder (N.toNat - 1) (by omega)]
    have : ¬ (((N.toNat - 1 : Nat) : Int) < N - 1) := by omega
    simp [this]
  refine ⟨partCalculate_length N L url file folder, hfrom, hto, hlastto, ?_, ?_, ?_⟩
  · intro i hi
    rw [hfrom i (by omega), hto i hi]
    ring
  · rw [hfrom (N.toNat - 1) (by omega)]
    have hcast1 : (((N.toNat - 1 : Nat) : Int)) = N - 1 := by omega
    rw [hcast1]
    ring
  · intro k h0 hk
    exact planCoverage N L hN hL url file folder k h0 hk

/-- Witness for C3 at `N = 3`, `L = 10`: three parts, the last with
sentinel `RangeTo = 10`, and position `7` covered by exactly one part. -/
theorem partCalculate_spec_witness :
    (partCalculate 3 10 "u" "f" "/d").length = 3
    ∧ (partAt (partCalculate 3 10 "u" "f" "/d") 2).RangeTo = 10
    ∧ (∃! i : Nat, i < 3 ∧ coversAt (partCalculate 3 10 "u" "f" "/d") 10 i 7) := by
  have h := partCalculate_spec 3 10 "u" "f" "/d" (by norm_num) (by norm_num)
  refine ⟨by simpa using h.1, by simpa using h.2.2.2.1, ?_⟩
  have h7 := h.2.2.2.2.2.2 7 (by norm_num) (by norm_num)
  simpa using h7


/-! ## C4: the capability prober fallback -/

theorem contentRangeTotal_pos {cr : String} {t : Int} (h : contentRangeTotal cr = some t) :
    0 < t := by
  simp only [contentRangeTotal] at h
  split_ifs at h
  revert h
  split
  · next total heq =>
    split_ifs with hpos
    · intro h; cases h; exact hpos
    · intro h; cases h
  · intro h; cases h

theorem probeAttempted_eq (head get : Option ProbeResp) (par : Int) :
    (NewHTTPDownloaderProbe head get par).probeAttempted =
      probeNeeded (headStage head).1 (headStage head).2.1 := by
  simp only [NewHTTPDownloaderProbe]
  split <;> rfl

/-- C4: when the HEAD stage has not confirmed range support or has not
learned the length, the prober issues the fallback GET with
`Range: bytes=0-0`; a 206 response then confirms range support — with no
condition on the `Accept-Ranges` header — and the total length is taken
from the `/<total>` suffix of `Content-Range`; afterwards, if range
support is still unconfirmed parallelism is forced to `1`, and if the
length is still unknown parallelism is forced to `1`, the sentinel
length `1` is installed, and the task is marked non-resumable. -/
theorem prober_fallback_spec (head get : Option ProbeResp) (par : Int)
    (hneed : probeNeeded (headStage head).1 (headStage head).2.1 = true) :
    (NewHTTPDownloaderProbe head get par).probeAttempted = true
    ∧ (∀ pr total, get = some pr → pr.statusCode = 206 →
        contentRangeTotal pr.contentRange = some total →
        (midStage head get).1 = true ∧ (midStage head get).2.1 = total
        ∧ (NewHTTPDownloaderProbe head get par).rangeSupported = true
        ∧ (NewHTTPDownloaderProbe head get par).lenValue = total)
    ∧ ((midStage head get).1 = false → (NewHTTPDownloaderProbe head get par).par = 1)
    ∧ ((midStage head get).2.1 = 0 →
        (NewHTTPDownloaderProbe head get par).par = 1
        ∧ (NewHTTPDownloaderProbe head get par).lenValue = 1
        ∧ (NewHTTPDownloaderProbe head get par).resumable = false) := by
  refine ⟨?_, ?_, ?_, ?_⟩
  · rw [probeAttempted_eq]; exact hneed
  · intro pr total hget h206 hcr
    have hmid : midStage head get = (true, total, true) := by
      simp only [midStage, hneed, hget, if_true]
      simp [h206, hcr]
    have hpos := contentRangeTotal_pos hcr
    refine ⟨by rw [hmid], by rw [hmid], ?_, ?_⟩
    · simp only [NewHTTPDownloaderProbe, hmid]
      split <;> rfl
    · simp only [NewHTTPDownloaderProbe, hmid]
      split
      · next hz => exfalso; omega
      · rfl
  · intro hrs
    simp only [NewHTTPDownloaderProbe]
    split
    · rfl
    · simp [hrs]
  · intro hlen
    simp only [NewHTTPDownloaderProbe]
    split
    · exact ⟨rfl, rfl, rfl⟩
    · next hz => exact absurd hlen hz

/-- Witness for C4: a HEAD response with neither `Accept-Ranges` nor
`Content-Length`, answered on the fallback probe by
`206` with `Content-Range: bytes 0-0/4096`, at requested parallelism 4:
the probe runs, range support is confirmed without `Accept-Ranges`, and
the total becomes 4096. -/
theorem prober_fallback_spec_witness :
    (NewHTTPDownloaderProbe (some ⟨200, "", "", ""⟩)
        (some ⟨206, "", "", "bytes 0-0/4096"⟩) 4).probeAttempted = true
    ∧ (NewHTTPDownloaderProbe (some ⟨200, "", "", ""⟩)
        (some ⟨206, "", "", "bytes 0-0/4096"⟩) 4).rangeSupported = true
    ∧ (NewHTTPDownloaderProbe (some ⟨200, "", "", ""⟩)
        (some ⟨206, "", "", "bytes 0-0/4096"⟩) 4).lenValue = 4096 := by
  have h := prober_fallback_spec (some ⟨200, "", "", ""⟩)
    (some ⟨206, "", "", "bytes 0-0/4096"⟩) 4 (by decide)
  have h2 := h.2.1 ⟨206, "", "", "bytes 0-0/4096"⟩ 4096 rfl rfl (by decide)
  exact ⟨h.1, h2.2.2.1, h2.2.2.2⟩

/-! ## C6: the task name is separator-free -/

theorem splitSlash_ne_nil : ∀ cs : List Char, splitSlash cs ≠ [] := by
  intro cs
  induction cs with
  | nil => simp [splitSlash]
  | cons c cs ih =>
    by_cases hc : c = '/'
    · simp [splitSlash, hc]
    · simp only [splitSlash, hc, if_false]
      split
      · simp
      · simp

theorem splitSlash_no_slash : ∀ (cs : List Char), ∀ seg ∈ splitSlash cs, '/' ∉ seg := by
  intro cs
  induction cs with
  | nil =>
    intro seg hseg
    simp [splitSlash] at hseg
    simp [hseg]
  | cons c cs ih =>
    intro seg hseg
    by_cases hc : c = '/'
    · simp [splitSlash, hc] at hseg
      rcases hseg with h | h
      · simp [h]
      · exact ih seg h
    · simp only [splitSlash, hc, if_false] at hseg
      cases hsp : splitSlash cs with
      | nil => exact absurd hsp (splitSlash_ne_nil cs)
      | cons p ps =>
        rw [hsp] at hseg
        simp at hseg
        rcases hseg with rfl | h
        · intro hmem
          rcases List.mem_cons.mp hmem with rfl | hmem2
          · exact hc rfl
          · exact ih p (by rw [hsp]; exact List.mem_cons_self p ps) hmem2
        · exact ih seg (by rw [hsp]; exact List.mem_cons_of_mem p h)

theorem dropWhile_subset_fixed {f g : Char → Bool} (hfg : ∀ c, f c = true → g c = true) :
    ∀ l : List Char, (l.dropWhile g).dropWhile f = l.dropWhile g := by
  intro l
  induction l with
  | nil => rfl
  | cons c cs ih =>
    by_cases hg : g c = true
    · simp [List.dropWhile_cons, hg, ih]
    · have hf : ¬ f c = true := fun hf => hg (hfg c hf)
      simp [List.dropWhile_cons, hg, hf]

theorem getLastD_memb : ∀ (l : List (List Char)), l ≠ [] → l.getLastD [] ∈ l := by
  intro l
  induction l with
  | nil => intro h; exact absurd rfl h
  | cons a as ih =>
    intro _
    cases as with
    | nil => simp [List.getLastD]
    | cons b bs =>
      have h2 : (b :: bs).getLastD [] ∈ b :: bs := ih (by simp)
      have h3 : (a :: b :: bs).getLastD [] = (b :: bs).getLastD [] := by simp [List.getLastD]
      rw [h3]
      exact List.mem_cons_of_mem a h2

theorem goBase_after_trim_no_slash (u : List Char) :
    '/' ∉ goBaseChars (dropTrailing isSepOrBackslash u) := by
  have hq : dropTrailing isSep (dropTrailing isSepOrBackslash u) =
      dropTrailing isSepOrBackslash u := by
    unfold dropTrailing
    rw [List.reverse_reverse]
    rw [dropWhile_subset_fixed]
    intro c hc
    simp only [isSep, decide_eq_true_eq] at hc
    simp only [isSepOrBackslash, decide_eq_true_eq]
    exact Or.inl hc
  unfold goBaseChars
  by_cases h0 : dropTrailing isSepOrBackslash u = []
  · simp [h0]
  · rw [if_neg h0]
    simp only [hq]
    rw [if_neg h0]
    exact splitSlash_no_slash _ _ (getLastD_memb _ (splitSlash_ne_nil _))

/-- C6 (amended): for every URL, the task name returned by `TaskFromURL`
contains no path separator (`'/'`); the claim's further guarantee that
the result never contains the substring `".."` does not hold (see the
counterexample), since the final path element may itself contain `".."`
as an infix. -/
theorem TaskFromURL_no_separator (path : String) : '/' ∉ (TaskFromURLPath path).data :=
  goBase_after_trim_no_slash (goCleanChars path.data)

/-- C6 counterexample: for the URL `http://foo.bar/a..b` (parsed path
`/a..b`), `TaskFromURL` returns `"a..b"`, which contains the substring
`".."` — so the claim that the result never contains `".."` is false. -/
theorem TaskFromURL_dotdot_counterexample :
    TaskFromURLPath "/a..b" = "a..b" ∧ goContains (TaskFromURLPath "/a..b") ".." = true := by
  constructor <;> decide

/-! ## C7: `FolderOf` and directory traversal -/

theorem commonLen_spec : ∀ (a b : List (List Char)),
    a.take (commonLen a b) = b.take (commonLen a b)
    ∧ commonLen a b ≤ a.length ∧ commonLen a b ≤ b.length := by
  intro a
  induction a with
  | nil => intro b; simp [commonLen]
  | cons x xs ih =>
    intro b
    cases b with
    | nil => simp [commonLen]
    | cons y ys =>
      by_cases hxy : x = y
      · have h := ih ys
        simp only [commonLen, hxy, if_true, List.take_succ_cons, List.length_cons]
        refine ⟨by rw [h.1], by omega, by omega⟩
      · simp [commonLen, hxy]

theorem interSlash_cons_starts (x : List Char) (xs : List (List Char)) :
    x <+: interSlash (x :: xs) := by
  cases xs with
  | nil => simp [interSlash, List.intercalate]
  | cons y ys =>
    rw [show interSlash (x :: y :: ys) = x ++ ['/'] ++ interSlash (y :: ys) from by
      simp [interSlash, List.intercalate, List.intersperse]]
    rw [List.append_assoc]
    exact List.prefix_append x _

theorem goRel_no_dotdot_desc (b t r : List Char)
    (h : goRelChars b t = some r) (hnd : ¬ (['.', '.'] <:+: r)) :
    pathSegs (goCleanChars b) <+: pathSegs (goCleanChars t) := by
  simp only [goRelChars] at h
  split_ifs at h with h1 h2
  · rw [h1]
  · rename_i hdot hempty
    -- no remaining base elements: the base segments are a prefix
    have hk := commonLen_spec (pathSegs (goCleanChars b)) (pathSegs (goCleanChars t))
    set k := commonLen (pathSegs (goCleanChars b)) (pathSegs (goCleanChars t)) with hkdef
    have hlen : (pathSegs (goCleanChars b)).length ≤ k := by
      have := congrArg List.length hempty
      simp at this
      omega
    have hbl : pathSegs (goCleanChars b) = (pathSegs (goCleanChars t)).take k := by
      rw [← hk.1]
      rw [List.take_of_length_le hlen]
    rw [hbl]
    exact List.take_prefix k _
  · rename_i hdot hempty
    -- remaining base elements would climb with "..": r then contains ".."
    exfalso
    cases h
    cases hbrem : (pathSegs (goCleanChars b)).drop
        (commonLen (pathSegs (goCleanChars b)) (pathSegs (goCleanChars t))) with
    | nil => exact hempty hbrem
    | cons z zs =>
      rw [hbrem] at hnd
      simp only [List.length_cons, List.replicate_succ, List.cons_append] at hnd
      rcases interSlash_cons_starts ['.', '.']
          (List.replicate zs.length ['.', '.'] ++
            (pathSegs (goCleanChars t)).drop
              (commonLen (pathSegs (goCleanChars b)) (pathSegs (goCleanChars t)))) with ⟨tail, htail⟩
      exact hnd ⟨[], tail, by simpa using htail⟩

/-- C7 (amended): for every URL whose parsed path contains `".."`,
`FolderOf` rejects it outright (fails with the directory-traversal
error, creating no directory — the function contains no directory
creation at all); and every path `FolderOf` does accept yields a
directory that is a descendant of `home/data_root`, though not always a
strict one: a URL with an empty path yields `home/data_root` itself (see
the counterexample). -/
theorem FolderOf_spec (cwd home dataFolder : String) :
    (∀ path : String, goContains path ".." = true →
      FolderOfPath cwd home dataFolder path = none)
    ∧ (∀ path q, FolderOfPath cwd home dataFolder path = some q →
      isDescendantOf q ⟨goJoinChars [home.data, dataFolder.data]⟩) := by
  constructor
  · intro path hp
    simp [FolderOfPath, hp]
  · intro path q hq
    simp only [FolderOfPath] at hq
    split_ifs at hq with h1
    revert hq
    split
    · intro hq; cases hq
    · next rel hrel =>
      intro hq
      split_ifs at hq with h2
      cases hq
      show List.IsPrefix (relSegs _) (relSegs _)
      unfold relSegs
      have hnd : ¬ (['.', '.'] <:+: rel) := by
        intro hcon
        have : goContains ⟨rel⟩ ".." = true := by
          unfold goContains
          simpa using hcon
        simp [this] at h2
      exact goRel_no_dotdot_desc _ _ _ hrel hnd

/-- C7 counterexample: the URL `http://foo.bar` parses to the empty path
`""`; `FolderOf` accepts it and returns exactly `home/data_root` — a
descendant but not a strict descendant, so "the returned path is a
strict descendant of home/data_root" is false as stated. -/
theorem FolderOf_strict_counterexample :
    FolderOfPath "/" "/root" ".hget/" "" = some "/root/.hget"
    ∧ String.mk (goJoinChars ["/root".data, ".hget/".data]) = "/root/.hget"
    ∧ ¬ isStrictDescendantOf "/root/.hget" "/root/.hget" := by
  refine ⟨by decide, by decide, ?_⟩
  intro hcon
  exact hcon.2 rfl

/-- Witness for C7: the traversal path `/..` is rejected, and the
accepted path `/file` yields `home/data_root/file`, a descendant of
`home/data_root`. -/
theorem FolderOf_spec_witness :
    FolderOfPath "/" "/root" ".hget/" "/.." = none
    ∧ isDescendantOf "/root/.hget/file" ⟨goJoinChars ["/root".data, ".hget/".data]⟩ := by
  constructor
  · exact (FolderOf_spec "/" "/root" ".hget/").1 "/.." (by decide)
  · exact (FolderOf_spec "/" "/root" ".hget/").2 "/file" "/root/.hget/file" (by decide)

/-! ## C8: the manifest round-trips through Save and Read -/

theorem hexDigit_val : ∀ d : Nat, d < 16 → hexVal (Nat.digitChar d) = some d := by decide

theorem parseJStringBody_escape (c : Char) (acc T : List Char) :
    parseJStringBody (jsonEscapeChar c ++ T) acc = parseJStringBody T (c :: acc) := by
  by_cases h1 : c = '"'
  · subst h1
    rw [show jsonEscapeChar '"' = ['\\', '"'] from rfl]
    rw [parseJStringBody.eq_def]
    simp
  by_cases h2 : c = '\\'
  · subst h2
    rw [show jsonEscapeChar '\\' = ['\\', '\\'] from rfl]
    rw [parseJStringBody.eq_def]
    simp
  by_cases h3 : c = '\n'
  · subst h3
    rw [show jsonEscapeChar '\n' = ['\\', 'n'] from rfl]
    rw [parseJStringBody.eq_def]
    simp
  by_cases h4 : c = '\r'
  · subst h4
    rw [show jsonEscapeChar '\r' = ['\\', 'r'] from rfl]
    rw [parseJStringBody.eq_def]
    simp
  by_cases h5 : c = '\t'
  · subst h5
    rw [show jsonEscapeChar '\t' = ['\\', 't'] from rfl]
    rw [parseJStringBody.eq_def]
    simp
  by_cases h6 : c.toNat < 32 ∨ c = '<' ∨ c = '>' ∨ c = '&'
  · have hesc : jsonEscapeChar c =
        ['\\', 'u', '0', '0', Nat.digitChar (c.toNat / 16), Nat.digitChar (c.toNat % 16)] := by
      simp only [jsonEscapeChar, if_neg h1, if_neg h2, if_neg h3, if_neg h4, if_neg h5, if_pos h6]
    have hle : c.toNat ≤ 62 := by
      rcases h6 with h | h | h | h
      · omega
      all_goals subst h; decide
    rw [hesc]
    simp only [List.cons_append, List.nil_append]
    rw [parseJStringBody.eq_def]
    simp only [hexDigit_val (c.toNat / 16) (by omega), hexDigit_val (c.toNat % 16) (by omega)]
    simp only [show hexVal '0' = some 0 from rfl]
    simp
    rw [show c.toNat / 16 * 16 + c.toNat % 16 = c.toNat by omega]
    rw [Char.ofNat_toNat]
  by_cases h7 : c.toNat = 8232 ∨ c.toNat = 8233
  · have hesc : jsonEscapeChar c = ['\\', 'u', '2', '0', '2', Nat.digitChar (c.toNat % 16)] := by
      simp only [jsonEscapeChar, if_neg h1, if_neg h2, if_neg h3, if_neg h4, if_neg h5,
        if_neg h6, if_pos h7]
    rw [hesc]
    simp only [List.cons_append, List.nil_append]
    rw [parseJStringBody.eq_def]
    simp only [hexDigit_val (c.toNat % 16) (by omega)]
    simp only [show hexVal '2' = some 2 from rfl, show hexVal '0' = some 0 from rfl]
    simp
    have hch : Char.ofNat (((2 * 16 + 0) * 16 + 2) * 16 + c.toNat % 16) = c := by
      rw [show ((2 * 16 + 0) * 16 + 2) * 16 + c.toNat % 16 = c.toNat by omega]
      exact Char.ofNat_toNat c
    rw [hch]
  · have hesc : jsonEscapeChar c = [c] := by
      simp only [jsonEscapeChar, if_neg h1, if_neg h2, if_neg h3, if_neg h4, if_neg h5,
        if_neg h6, if_neg h7]
    rw [hesc]
    simp only [List.cons_append, List.nil_append]
    rw [parseJStringBody.eq_def]
    have h32 : ¬ c.toNat < 32 := fun hc => h6 (Or.inl hc)
    simp [h1, h2, h32]

theorem parseJStringBody_enc (l : List Char) : ∀ (acc rest : List Char),
    parseJStringBody (l.flatMap jsonEscapeChar ++ ('"' :: rest)) acc =
      some (⟨acc.reverse ++ l⟩, rest) := by
  induction l with
  | nil =>
    intro acc rest
    rw [show ([] : List Char).flatMap jsonEscapeChar = [] from rfl, List.nil_append]
    rw [parseJStringBody.eq_def]
    simp
  | cons c l ih =>
    intro acc rest
    rw [List.flatMap_cons, List.append_assoc, parseJStringBody_escape]
    rw [ih (c :: acc) rest]
    simp

theorem parseJString_enc (s : String) (rest : List Char) :
    parseJString (jsonEncodeString s ++ rest) = some (s, rest) := by
  rw [show jsonEncodeString s ++ rest = '"' :: (s.data.flatMap jsonEscapeChar ++ ('"' :: rest)) by
    simp [jsonEncodeString]]
  rw [show parseJString ('"' :: (s.data.flatMap jsonEscapeChar ++ ('"' :: rest))) =
    parseJStringBody (s.data.flatMap jsonEscapeChar ++ ('"' :: rest)) [] from by
    simp [parseJString]]
  rw [parseJStringBody_enc]
  simp

theorem parseLit_append : ∀ (l rest : List Char), parseLit l (l ++ rest) = some rest := by
  intro l
  induction l with
  | nil => intro rest; rfl
  | cons c cs ih =>
    intro rest
    rw [show parseLit (c :: cs) ((c :: cs) ++ rest) =
      (if c = c then parseLit cs (cs ++ rest) else none) from rfl]
    rw [if_pos rfl]
    exact ih rest

theorem isDig_ne_dash {d : Char} (h : isDig d = true) : ¬ d = '-' := by
  intro hc
  subst hc
  simp [isDig] at h

theorem nonDigit_head (c0 : Char) (h : isDig c0 = false) (Y : List Char) :
    ∀ c, (c0 :: Y).head? = some c → isDig c = false := by
  intro c hc
  simp only [List.head?_cons, Option.some.injEq] at hc
  subst hc
  exact h

theorem parseNat_enc_head (n : Nat) {d : Char} {ds : List Char} (hnd : natDec n = d :: ds)
    (rest : List Char) (hrest : ∀ c, rest.head? = some c → isDig c = false) :
    parseNatAux (digVal d) (ds ++ rest) = (n, rest) := by
  have h0 := parseNat_enc n rest hrest
  rw [hnd] at h0
  rw [show parseNatAux 0 ((d :: ds) ++ rest) =
      (if isDig d then parseNatAux (0 * 10 + digVal d) (ds ++ rest) else (0, d :: ds ++ rest))
    from rfl] at h0
  have hd : isDig d = true := by
    have := natDec_all_dig n d (by rw [hnd]; exact List.mem_cons_self d ds)
    exact this
  rw [if_pos hd] at h0
  simpa using h0

theorem parseJInt_enc (i : Int) (rest : List Char) (hi : isInt64 i)
    (hrest : ∀ c, rest.head? = some c → isDig c = false) :
    parseJInt (renderInt i ++ rest) = some (i, rest) := by
  by_cases hneg : i < 0
  · rw [show renderInt i = '-' :: natDec (-i).toNat from by simp [renderInt, hneg]]
    cases hnd : natDec (-i).toNat with
    | nil => exact absurd hnd (natDec_ne_nil _)
    | cons d ds =>
      have hd : isDig d = true :=
        natDec_all_dig _ d (by rw [hnd]; exact List.mem_cons_self d ds)
      rw [parseJInt.eq_def]
      simp only [List.cons_append, eq_self_iff_true, if_true, hd]
      rw [parseNat_enc_head _ hnd rest hrest]
      have hcast : (((-i).toNat : Int)) = -i := Int.toNat_of_nonneg (by omega)
      have hbound : int64Min ≤ -(((-i).toNat : Int)) := by
        rw [hcast]
        simpa using hi.1
      simp only [hbound, if_true]
      rw [show -(((-i).toNat : Int)) = i by omega]
  · rw [show renderInt i = natDec i.toNat from by simp [renderInt, hneg]]
    cases hnd : natDec i.toNat with
    | nil => exact absurd hnd (natDec_ne_nil _)
    | cons d ds =>
      have hd : isDig d = true :=
        natDec_all_dig _ d (by rw [hnd]; exact List.mem_cons_self d ds)
      rw [parseJInt.eq_def]
      simp only [List.cons_append]
      rw [if_neg (isDig_ne_dash hd)]
      simp only [hd, if_true]
      rw [parseNat_enc_head _ hnd rest hrest]
      have hcast : ((i.toNat : Int)) = i := Int.toNat_of_nonneg (by omega)
      have hbound : ((i.toNat : Int)) ≤ int64Max := by
        rw [hcast]
        exact hi.2
      simp only [hbound, if_true]
      rw [hcast]

theorem nonDigit_head_data (s : String) (c0 : Char) (h0 : s.data.head? = some c0)
    (hd : isDig c0 = false) (Y : List Char) :
    ∀ c, (s.data ++ Y).head? = some c → isDig c = false := by
  intro c hc
  cases hs : s.data with
  | nil => rw [hs] at h0; cases h0
  | cons a as =>
    rw [hs] at h0 hc
    simp only [List.cons_append, List.head?_cons, Option.some.injEq] at h0 hc
    subst h0
    subst hc
    exact hd

theorem parsePart_enc (p : Part) (hp : isInt64Part p) (rest : List Char) :
    parsePart (encodePart p ++ rest) = some (p, rest) := by
  obtain ⟨hIdx, hFrom, hTo⟩ := hp
  rw [show encodePart p ++ rest =
      "\x7b\"Index\":".data ++ (renderInt p.Index ++ (",\"URL\":".data ++ (jsonEncodeString p.URL
        ++ (",\"Path\":".data ++ (jsonEncodeString p.Path ++ (",\"RangeFrom\":".data
        ++ (renderInt p.RangeFrom ++ (",\"RangeTo\":".data ++ (renderInt p.RangeTo
        ++ ("\x7d".data ++ rest)))))))))) from by
    simp only [encodePart, List.append_assoc]]
  unfold parsePart
  simp only [Option.bind_eq_bind]
  rw [parseLit_append]
  simp only [Option.some_bind]
  rw [parseJInt_enc p.Index _ hIdx (nonDigit_head_data ",\"URL\":" ',' rfl (by decide) _)]
  simp only [Option.some_bind]
  rw [parseLit_append]
  simp only [Option.some_bind]
  rw [parseJString_enc]
  simp only [Option.some_bind]
  rw [parseLit_append]
  simp only [Option.some_bind]
  rw [parseJString_enc]
  simp only [Option.some_bind]
  rw [parseLit_append]
  simp only [Option.some_bind]
  rw [parseJInt_enc p.RangeFrom _ hFrom (nonDigit_head_data ",\"RangeTo\":" ',' rfl (by decide) _)]
  simp only [Option.some_bind]
  rw [parseLit_append]
  simp only [Option.some_bind]
  rw [parseJInt_enc p.RangeTo _ hTo (nonDigit_head_data "\x7d" '\x7d' rfl (by decide) _)]
  simp only [Option.some_bind]
  rw [parseLit_append]
  simp only [Option.some_bind, Option.pure_def]

theorem head_data_append (s : String) (a : Char) (as : List Char) (h : s.data = a :: as)
    (Z : List Char) : (s.data ++ Z).head? = some a := by
  rw [h]
  rfl

theorem encodePart_len_pos (p : Part) : 1 ≤ (encodePart p).length := by
  simp [encodePart]

theorem interParts_len : ∀ ps : List Part,
    ps.length ≤ (List.intercalate [','] (ps.map encodePart)).length := by
  intro ps
  induction ps with
  | nil => simp
  | cons p t ih =>
    cases t with
    | nil =>
      rw [show List.intercalate [','] ((p :: ([] : List Part)).map encodePart) = encodePart p from by
        simp [List.intercalate]]
      have h1 := encodePart_len_pos p
      simp only [List.length_cons, List.length_nil]
      omega
    | cons q t2 =>
      rw [show List.intercalate [','] ((p :: q :: t2).map encodePart) =
          encodePart p ++ [','] ++ List.intercalate [','] ((q :: t2).map encodePart) from by
        simp [List.intercalate, List.intersperse]]
      have h1 := encodePart_len_pos p
      simp only [List.length_append, List.length_cons] at ih ⊢
      omega

theorem parsePartsList_succ (f : Nat) (cs : List Char) :
    parsePartsList (f + 1) cs =
      match parsePart cs with
      | none => none
      | some (p, cs1) =>
        match cs1 with
        | [] => none
        | c :: cs2 =>
          if c = ',' then
            match parsePartsList f cs2 with
            | none => none
            | some (ps, r) => some (p :: ps, r)
          else if c = ']' then some ([p], cs2) else none := rfl

theorem parsePartsList_enc : ∀ (ps : List Part), ps ≠ [] → (∀ p ∈ ps, isInt64Part p) →
    ∀ (fuel : Nat), ps.length ≤ fuel → ∀ (rest : List Char),
    parsePartsList fuel (List.intercalate [','] (ps.map encodePart) ++ (']' :: rest)) =
      some (ps, rest) := by
  intro ps
  induction ps with
  | nil => intro h; exact absurd rfl h
  | cons p t ih =>
    intro _ hb fuel hfuel rest
    cases fuel with
    | zero => simp at hfuel
    | succ f =>
      have hbp : isInt64Part p := hb p (List.mem_cons_self p t)
      cases t with
      | nil =>
        rw [show List.intercalate [','] ((p :: ([] : List Part)).map encodePart) =
            encodePart p from by simp [List.intercalate]]
        rw [parsePartsList_succ]
        rw [parsePart_enc p hbp (']' :: rest)]
        simp
      | cons q t2 =>
        rw [show List.intercalate [','] ((p :: q :: t2).map encodePart) =
            encodePart p ++ [','] ++ List.intercalate [','] ((q :: t2).map encodePart) from by
          simp [List.intercalate, List.intersperse]]
        rw [List.append_assoc, List.append_assoc]
        rw [parsePartsList_succ]
        rw [parsePart_enc p hbp _]
        simp only [List.cons_append, List.nil_append]
        rw [show parsePartsList f
            (List.intercalate [','] ((q :: t2).map encodePart) ++ (']' :: rest)) =
          some (q :: t2, rest) from ih (by simp)
            (fun x hx => hb x (List.mem_cons_of_mem p hx)) f (by simpa using hfuel) rest]
        simp

theorem parsePartsArr_enc (ps : List Part) (hb : ∀ p ∈ ps, isInt64Part p)
    (fuel : Nat) (hfuel : ps.length ≤ fuel) (rest : List Char) :
    parsePartsArr fuel ('[' :: (List.intercalate [','] (ps.map encodePart) ++ (']' :: rest))) =
      some (ps, rest) := by
  cases ps with
  | nil =>
    rw [show List.intercalate [','] (([] : List Part).map encodePart) ++ (']' :: rest) =
      ']' :: rest from by simp [List.intercalate]]
    rfl
  | cons p t =>
    have hh : (List.intercalate [','] ((p :: t).map encodePart) ++ (']' :: rest)).head? =
        some '\x7b' := by
      cases t with
      | nil =>
        rw [show List.intercalate [','] ((p :: ([] : List Part)).map encodePart) =
            encodePart p from by simp [List.intercalate]]
        simp only [encodePart, List.append_assoc]
        exact head_data_append "\x7b\"Index\":" '\x7b' "\"Index\":".data rfl _
      | cons q t2 =>
        rw [show List.intercalate [','] ((p :: q :: t2).map encodePart) =
            encodePart p ++ [','] ++ List.intercalate [','] ((q :: t2).map encodePart) from by
          simp [List.intercalate, List.intersperse]]
        simp only [encodePart, List.append_assoc]
        exact head_data_append "\x7b\"Index\":" '\x7b' "\"Index\":".data rfl _
    cases hcs : List.intercalate [','] ((p :: t).map encodePart) ++ (']' :: rest) with
    | nil => rw [hcs] at hh; cases hh
    | cons d cs2 =>
      rw [hcs] at hh
      simp only [List.head?_cons, Option.some.injEq] at hh
      rw [parsePartsArr.eq_def]
      simp only [if_pos rfl]
      rw [show (if d = ']' then some (([] : List Part), cs2)
          else parsePartsList fuel (d :: cs2)) =
        parsePartsList fuel (d :: cs2) from by
        rw [if_neg]
        rw [hh]
        decide]
      rw [← hcs]
      exact parsePartsList_enc (p :: t) (by simp) hb fuel hfuel rest

theorem parseLit_self (l : List Char) : parseLit l l = some [] := by
  have h := parseLit_append l []
  rwa [List.append_nil] at h

/-- C8: serializing a manifest and deserializing the result returns a
`State` with identical field values — `Save` writes `json.Marshal(s)`
into the task directory's `state.json` and `Read` returns
`json.Unmarshal` of that file, so a save that succeeded is read back
byte-identically.  The hypothesis restricts the numeric fields to the
int64 range, which every Go-representable `Part` satisfies. -/
theorem State_save_read_roundtrip (s : State) (h : isInt64State s) :
    jsonDecodeState (jsonEncodeState s) = some s := by
  rw [show jsonEncodeState s =
      "\x7b\"URL\":".data ++ (jsonEncodeString s.URL ++ (",\"Parts\":".data
        ++ ('[' :: (List.intercalate [','] (s.Parts.map encodePart)
        ++ (']' :: "\x7d".data))))) from by
    simp [jsonEncodeState]]
  unfold jsonDecodeState
  simp only [Option.bind_eq_bind]
  rw [parseLit_append]
  simp only [Option.some_bind]
  rw [parseJString_enc]
  simp only [Option.some_bind]
  rw [parseLit_append]
  simp only [Option.some_bind]
  have hfuel : s.Parts.length ≤
      ('[' :: (List.intercalate [','] (s.Parts.map encodePart) ++ (']' :: "\x7d".data))).length := by
    have := interParts_len s.Parts
    simp only [List.length_cons, List.length_append]
    omega
  rw [parsePartsArr_enc s.Parts h _ hfuel "\x7d".data]
  simp only [Option.some_bind]
  rw [parseLit_self]
  simp only [Option.some_bind]
  rfl

/-- Witness for C8 at the manifest of the repository's `TestStateSave`:
two parts of `http://example.com/test.zip` survive the
encode-then-decode round trip unchanged. -/
theorem State_save_read_roundtrip_witness :
    jsonDecodeState (jsonEncodeState ⟨"http://example.com/test.zip",
      [⟨0, "http://example.com/test.zip", "temp_part0", 0, 100⟩,
       ⟨1, "http://example.com/test.zip", "temp_part1", 101, 200⟩]⟩) =
      some ⟨"http://example.com/test.zip",
      [⟨0, "http://example.com/test.zip", "temp_part0", 0, 100⟩,
       ⟨1, "http://example.com/test.zip", "temp_part1", 101, 200⟩]⟩ :=
  State_save_read_roundtrip _ (by decide)

end Hget
